import Mathlib

/-!
Verification of `compiler-rt/lib/asan/asan_memory_profile.cpp`
(`__sanitizer_print_memory_profile`): the heap-profile aggregator
(`HeapProfile::ProcessChunk`, `HeapProfile::Insert`), the report renderer
(`HeapProfile::Print`) and the lock protocol of
`LockDefStuffAndStopTheWorld`, shallowly embedded in Lean.
-/

namespace AsanMemProf

/-- A chunk record as classified by `HeapProfile::ProcessChunk` from the
`AsanChunkView`: either allocated (with user-visible size and allocation
stack id), quarantined (with size), or other. Sizes and ids are modelled
as naturals (`uptr` / `u32` values). -/
inductive ChunkRecord where
  | allocated (size : Nat) (id : Nat)
  | quarantined (size : Nat)
  | other
deriving DecidableEq, Repr

/-- `struct AllocationSite { u32 id; uptr total_size; uptr count; }`. -/
structure AllocationSite where
  id : Nat
  total_size : Nat
  count : Nat
deriving DecidableEq, Repr

/-- The mutable state of `class HeapProfile`: five scalar totals plus the
`allocations_` vector. -/
structure HeapProfile where
  total_allocated_user_size : Nat
  total_allocated_count : Nat
  total_quarantined_user_size : Nat
  total_quarantined_count : Nat
  total_other_count : Nat
  allocations : List AllocationSite
deriving DecidableEq, Repr

/-- The freshly constructed `HeapProfile()`: all totals zero, empty vector. -/
def HeapProfile.init : HeapProfile := ⟨0, 0, 0, 0, 0, []⟩

/-- `HeapProfile::Insert(u32 id, uptr size)`: linear scan over
`allocations_`; the first record with matching `id` gets `size` added to
`total_size` and `count` incremented; if no record matches, `{id, size, 1}`
is pushed at the back. -/
def insertSite (id size : Nat) : List AllocationSite → List AllocationSite
  | [] => [⟨id, size, 1⟩]
  | a :: rest =>
    if a.id = id then
      { a with total_size := a.total_size + size, count := a.count + 1 } :: rest
    else
      a :: insertSite id size rest

/-- `HeapProfile::Insert` acting on the whole profile state. -/
def HeapProfile.Insert (hp : HeapProfile) (id size : Nat) : HeapProfile :=
  { hp with allocations := insertSite id size hp.allocations }

/-- `HeapProfile::ProcessChunk(const AsanChunkView &cv)`: allocated chunks
add to the allocated totals and, when the stack id is nonzero, are inserted
into the per-site table; quarantined chunks add to the quarantined totals;
anything else bumps `total_other_count_`. -/
def HeapProfile.ProcessChunk (hp : HeapProfile) (cv : ChunkRecord) : HeapProfile :=
  match cv with
  | .allocated size id =>
    let hp' : HeapProfile :=
      { hp with
        total_allocated_user_size := hp.total_allocated_user_size + size
        total_allocated_count := hp.total_allocated_count + 1 }
    if id ≠ 0 then hp'.Insert id size else hp'
  | .quarantined size =>
    { hp with
      total_quarantined_user_size := hp.total_quarantined_user_size + size
      total_quarantined_count := hp.total_quarantined_count + 1 }
  | .other =>
    { hp with total_other_count := hp.total_other_count + 1 }

/-- Feeding a stream of chunk records to a profile, in order (the chunk
enumerator invokes `ChunkCallback` once per chunk). -/
def foldChunks (hp : HeapProfile) (l : List ChunkRecord) : HeapProfile :=
  l.foldl HeapProfile.ProcessChunk hp

/-- A fresh aggregator fed the whole stream (`MemoryProfileCB`). -/
def processChunks (l : List ChunkRecord) : HeapProfile :=
  foldChunks HeapProfile.init l

/- ### Renderer (`HeapProfile::Print`) -/

/-- One emitted numeric site line:
`Printf("%zd byte(s) (%zd%%) in %zd allocation(s)\n", ...)`. -/
structure SiteLine where
  bytes : Nat
  percent : Nat
  count : Nat
deriving DecidableEq, Repr

/-- The header line emitted by `HeapProfile::Print` before the loop. -/
structure Header where
  allocatedBytes : Nat
  allocatedCount : Nat
  quarantinedBytes : Nat
  quarantinedCount : Nat
  otherCount : Nat
  totalChunks : Nat
  topPercent : Nat
  maxContexts : Nat
deriving DecidableEq, Repr

/-- The numeric line built from one `AllocationSite` record, given the
total allocated user size. -/
def mkLine (alloc : Nat) (a : AllocationSite) : SiteLine :=
  ⟨a.total_size, a.total_size * 100 / alloc, a.count⟩

/-- The `for` loop of `HeapProfile::Print`: iterate over the sorted sites
while `i < Min(allocations_.size(), max_number_of_contexts)` (`fuel` is the
remaining iteration budget, initially `max_number_of_contexts`), emit the
line, add `total_size` to `total_shown` (`shown`), and break once
`total_shown * 100 / alloc > top_percent`. -/
def printLoop (alloc top : Nat) : List AllocationSite → Nat → Nat → List SiteLine
  | [], _, _ => []
  | _ :: _, 0, _ => []
  | a :: rest, fuel + 1, shown =>
    mkLine alloc a ::
      (if (shown + a.total_size) * 100 / alloc > top then []
       else printLoop alloc top rest fuel (shown + a.total_size))

/-- The ordering relation induced by the comparator passed to `Sort`
(`a.total_size > b.total_size`): descending by `total_size`. -/
def SiteGE (a b : AllocationSite) : Prop := b.total_size ≤ a.total_size

instance : DecidableRel SiteGE := fun a b => Nat.decLe b.total_size a.total_size

instance : IsTotal AllocationSite SiteGE :=
  ⟨fun a b => Nat.le_total b.total_size a.total_size⟩

instance : IsTrans AllocationSite SiteGE :=
  ⟨fun _ _ _ h1 h2 => Nat.le_trans h2 h1⟩

/-- Modelled from the spec: the `Sort` helper of `sanitizer_common` is not
part of this repository slice; per the spec the renderer sorts the list of
`AllocationSite` records by `total_size` descending (tie-break
unspecified). Modelled as a sort with the source's comparator. -/
def sortSites (l : List AllocationSite) : List AllocationSite :=
  l.insertionSort SiteGE

/-- The site lines emitted by `HeapProfile::Print(top, max)` (after the
`CHECK` passes). -/
def HeapProfile.printLines (hp : HeapProfile) (top maxn : Nat) : List SiteLine :=
  printLoop hp.total_allocated_user_size top (sortSites hp.allocations) maxn 0

/-- The header of `HeapProfile::Print`. -/
def HeapProfile.header (hp : HeapProfile) (top maxn : Nat) : Header :=
  ⟨hp.total_allocated_user_size, hp.total_allocated_count,
   hp.total_quarantined_user_size, hp.total_quarantined_count,
   hp.total_other_count,
   hp.total_allocated_count + hp.total_quarantined_count + hp.total_other_count,
   top, maxn⟩

/-- `HeapProfile::Print(uptr top_percent, uptr max_number_of_contexts)`:
`CHECK(total_allocated_user_size_)` aborts the process when the total is
zero (modelled as `none`); otherwise the header and the loop's site lines
are emitted. -/
def HeapProfile.Print (hp : HeapProfile) (top maxn : Nat) :
    Option (Header × List SiteLine) :=
  if hp.total_allocated_user_size = 0 then none
  else some (hp.header top maxn, hp.printLines top maxn)

/- ### Lock protocol (`LockDefStuffAndStopTheWorld`) -/

/-- Observable events of the snapshot coordinator's lock protocol. -/
inductive LockEvent where
  | lockThreadRegistry
  | lockAllocator
  | stopTheWorld
  | unlockAllocator
  | unlockThreadRegistry
deriving DecidableEq, Repr

/-- The straight-line event trace of `LockDefStuffAndStopTheWorld`:
`__lsan::LockThreadRegistry(); __lsan::LockAllocator();
__sanitizer::StopTheWorld(...); __lsan::UnlockAllocator();
__lsan::UnlockThreadRegistry();`. -/
def LockDefStuffAndStopTheWorld : List LockEvent :=
  [.lockThreadRegistry, .lockAllocator, .stopTheWorld,
   .unlockAllocator, .unlockThreadRegistry]

/- ### Per-record contribution functions (for totals lemmas) -/

/-- Bytes a record contributes to `total_allocated_user_size_`. -/
def allocSize : ChunkRecord → Nat
  | .allocated size _ => size
  | _ => 0

/-- Bytes a record contributes to `total_quarantined_user_size_`. -/
def quarSize : ChunkRecord → Nat
  | .quarantined size => size
  | _ => 0

/-- Whether a record is in the allocated state. -/
def isAlloc : ChunkRecord → Bool
  | .allocated _ _ => true
  | _ => false

/-- Whether a record is in the quarantined state. -/
def isQuar : ChunkRecord → Bool
  | .quarantined _ => true
  | _ => false

/-- Whether a record is in neither state. -/
def isOther : ChunkRecord → Bool
  | .other => true
  | _ => false

theorem ProcessChunk_totals (hp : HeapProfile) (r : ChunkRecord) :
    (hp.ProcessChunk r).total_allocated_user_size
        = hp.total_allocated_user_size + allocSize r ∧
      (hp.ProcessChunk r).total_allocated_count
        = hp.total_allocated_count + (if isAlloc r then 1 else 0) ∧
      (hp.ProcessChunk r).total_quarantined_user_size
        = hp.total_quarantined_user_size + quarSize r ∧
      (hp.ProcessChunk r).total_quarantined_count
        = hp.total_quarantined_count + (if isQuar r then 1 else 0) ∧
      (hp.ProcessChunk r).total_other_count
        = hp.total_other_count + (if isOther r then 1 else 0) := by
  cases r with
  | allocated size id =>
    by_cases h : id ≠ 0 <;>
      simp [HeapProfile.ProcessChunk, HeapProfile.Insert, allocSize, quarSize,
        isAlloc, isQuar, isOther, h]
  | quarantined size =>
    simp [HeapProfile.ProcessChunk, allocSize, quarSize, isAlloc, isQuar, isOther]
  | other =>
    simp [HeapProfile.ProcessChunk, allocSize, quarSize, isAlloc, isQuar, isOther]

theorem foldChunks_total_allocated_user_size (l : List ChunkRecord) (hp : HeapProfile) :
    (foldChunks hp l).total_allocated_user_size
      = hp.total_allocated_user_size + (l.map allocSize).sum := by
  induction l generalizing hp with
  | nil => simp [foldChunks]
  | cons r rest ih =>
    have h := (ProcessChunk_totals hp r).1
    simp only [foldChunks, List.foldl_cons] at *
    rw [ih, h, List.map_cons, List.sum_cons]
    omega

theorem foldChunks_total_allocated_count (l : List ChunkRecord) (hp : HeapProfile) :
    (foldChunks hp l).total_allocated_count
      = hp.total_allocated_count + l.countP isAlloc := by
  induction l generalizing hp with
  | nil => simp [foldChunks]
  | cons r rest ih =>
    have h := (ProcessChunk_totals hp r).2.1
    simp only [foldChunks, List.foldl_cons] at *
    rw [ih, h, List.countP_cons]
    by_cases hr : isAlloc r <;> simp [hr] <;> omega

theorem foldChunks_total_quarantined_user_size (l : List ChunkRecord) (hp : HeapProfile) :
    (foldChunks hp l).total_quarantined_user_size
      = hp.total_quarantined_user_size + (l.map quarSize).sum := by
  induction l generalizing hp with
  | nil => simp [foldChunks]
  | cons r rest ih =>
    have h := (ProcessChunk_totals hp r).2.2.1
    simp only [foldChunks, List.foldl_cons] at *
    rw [ih, h, List.map_cons, List.sum_cons]
    omega

theorem foldChunks_total_quarantined_count (l : List ChunkRecord) (hp : HeapProfile) :
    (foldChunks hp l).total_quarantined_count
      = hp.total_quarantined_count + l.countP isQuar := by
  induction l generalizing hp with
  | nil => simp [foldChunks]
  | cons r rest ih =>
    have h := (ProcessChunk_totals hp r).2.2.2.1
    simp only [foldChunks, List.foldl_cons] at *
    rw [ih, h, List.countP_cons]
    by_cases hr : isQuar r <;> simp [hr] <;> omega

theorem foldChunks_total_other_count (l : List ChunkRecord) (hp : HeapProfile) :
    (foldChunks hp l).total_other_count
      = hp.total_other_count + l.countP isOther := by
  induction l generalizing hp with
  | nil => simp [foldChunks]
  | cons r rest ih =>
    have h := (ProcessChunk_totals hp r).2.2.2.2
    simp only [foldChunks, List.foldl_cons] at *
    rw [ih, h, List.countP_cons]
    by_cases hr : isOther r <;> simp [hr] <;> omega

theorem countP_three_partition (l : List ChunkRecord) :
    l.countP isAlloc + l.countP isQuar + l.countP isOther = l.length := by
  induction l with
  | nil => simp
  | cons r rest ih =>
    simp only [List.countP_cons, List.length_cons]
    cases r <;> simp [isAlloc, isQuar, isOther] <;> omega

/-- **C5.** After any sequence of observed chunk records, the aggregator's
`total_allocated_count_ + total_quarantined_count_ + total_other_count_`
equals the number of records observed, and every single observed record
increments exactly one of the three counters by one, leaving the other two
unchanged. -/
theorem counter_conservation (l : List ChunkRecord) (hp : HeapProfile) (r : ChunkRecord) :
    (processChunks l).total_allocated_count + (processChunks l).total_quarantined_count
        + (processChunks l).total_other_count = l.length ∧
      (((hp.ProcessChunk r).total_allocated_count = hp.total_allocated_count + 1 ∧
          (hp.ProcessChunk r).total_quarantined_count = hp.total_quarantined_count ∧
          (hp.ProcessChunk r).total_other_count = hp.total_other_count) ∨
        ((hp.ProcessChunk r).total_allocated_count = hp.total_allocated_count ∧
          (hp.ProcessChunk r).total_quarantined_count = hp.total_quarantined_count + 1 ∧
          (hp.ProcessChunk r).total_other_count = hp.total_other_count) ∨
        ((hp.ProcessChunk r).total_allocated_count = hp.total_allocated_count ∧
          (hp.ProcessChunk r).total_quarantined_count = hp.total_quarantined_count ∧
          (hp.ProcessChunk r).total_other_count = hp.total_other_count + 1)) := by
  constructor
  · have h1 := foldChunks_total_allocated_count l HeapProfile.init
    have h2 := foldChunks_total_quarantined_count l HeapProfile.init
    have h3 := foldChunks_total_other_count l HeapProfile.init
    have h4 := countP_three_partition l
    have e1 : HeapProfile.init.total_allocated_count = 0 := rfl
    have e2 : HeapProfile.init.total_quarantined_count = 0 := rfl
    have e3 : HeapProfile.init.total_other_count = 0 := rfl
    simp only [processChunks]
    omega
  · obtain ⟨-, h1, -, h2, h3⟩ := ProcessChunk_totals hp r
    cases r <;> simp [isAlloc, isQuar, isOther] at h1 h2 h3 <;> omega

/-- **C8.** If a report is requested while the aggregator's total
allocated user size is zero, `HeapProfile::Print` hits
`CHECK(total_allocated_user_size_)` and aborts the process (modelled as
`none`) instead of producing a report. -/
theorem print_aborts_on_zero_alloc (hp : HeapProfile) (top maxn : Nat)
    (h : hp.total_allocated_user_size = 0) : hp.Print top maxn = none := by
  simp [HeapProfile.Print, h]

theorem print_aborts_on_zero_alloc_witness :
    (processChunks [ChunkRecord.quarantined 50,
        ChunkRecord.other]).total_allocated_user_size = 0 ∧
      (processChunks [ChunkRecord.quarantined 50, ChunkRecord.other]).Print 90 20 = none :=
  ⟨by decide,
    print_aborts_on_zero_alloc
      (processChunks [ChunkRecord.quarantined 50, ChunkRecord.other]) 90 20 (by decide)⟩

/- ### Renderer lemmas -/

/-- Cumulative bytes of a list of emitted lines (the running
`total_shown`). -/
def cumBytes (lines : List SiteLine) : Nat := (lines.map SiteLine.bytes).sum

theorem printLoop_length_le (alloc top : Nat) :
    ∀ (sites : List AllocationSite) (fuel shown : Nat),
      (printLoop alloc top sites fuel shown).length ≤ fuel := by
  intro sites
  induction sites with
  | nil => intro fuel shown; simp [printLoop]
  | cons a rest ih =>
    intro fuel shown
    cases fuel with
    | zero => simp [printLoop]
    | succ f =>
      simp only [printLoop]
      split
      · simp
      · simpa using ih f (shown + a.total_size)

theorem printLoop_mid_le_top (alloc top : Nat) :
    ∀ (sites : List AllocationSite) (fuel shown k : Nat),
      k + 1 < (printLoop alloc top sites fuel shown).length →
      (shown + cumBytes ((printLoop alloc top sites fuel shown).take (k + 1))) * 100 / alloc
        ≤ top := by
  intro sites
  induction sites with
  | nil => intro fuel shown k h; simp [printLoop] at h
  | cons a rest ih =>
    intro fuel shown k h
    cases fuel with
    | zero => simp [printLoop] at h
    | succ f =>
      simp only [printLoop] at h ⊢
      split at h
      · simp at h
      · rename_i hcond
        push_neg at hcond
        rw [if_neg (by omega)]
        cases k with
        | zero =>
          simpa [cumBytes] using hcond
        | succ k' =>
          have h' : k' + 1 < (printLoop alloc top rest f (shown + a.total_size)).length := by
            simpa using h
          have := ih f (shown + a.total_size) k' h'
          simp only [List.take_succ_cons, cumBytes, List.map_cons, List.sum_cons, mkLine]
          simp only [cumBytes] at this
          have harr : shown + (a.total_size +
              (List.map SiteLine.bytes
                ((printLoop alloc top rest f (shown + a.total_size)).take (k' + 1))).sum)
              = shown + a.total_size +
              (List.map SiteLine.bytes
                ((printLoop alloc top rest f (shown + a.total_size)).take (k' + 1))).sum := by
            omega
          rw [harr]
          exact this

theorem printLoop_stops_after_cross (alloc top : Nat) :
    ∀ (sites : List AllocationSite) (fuel shown : Nat),
      (printLoop alloc top sites fuel shown).length < min sites.length fuel →
      (shown + cumBytes (printLoop alloc top sites fuel shown)) * 100 / alloc > top := by
  intro sites
  induction sites with
  | nil => intro fuel shown h; simp [printLoop] at h
  | cons a rest ih =>
    intro fuel shown h
    cases fuel with
    | zero => simp at h
    | succ f =>
      simp only [printLoop] at h ⊢
      split at h <;> rename_i hcond
      · rw [if_pos hcond]
        simpa [cumBytes] using hcond
      · rw [if_neg hcond]
        have h' : (printLoop alloc top rest f (shown + a.total_size)).length
            < min rest.length f := by
          simp only [List.length_cons, List.length_cons] at h
          omega
        have := ih f (shown + a.total_size) h'
        simp only [cumBytes, List.map_cons, List.sum_cons, mkLine] at this ⊢
        have harr : shown + (a.total_size +
            ((printLoop alloc top rest f (shown + a.total_size)).map SiteLine.bytes).sum)
            = shown + a.total_size +
            ((printLoop alloc top rest f (shown + a.total_size)).map SiteLine.bytes).sum := by
          omega
        rw [harr]
        exact this

theorem printLoop_mem (alloc top : Nat) :
    ∀ (sites : List AllocationSite) (fuel shown : Nat) (x : SiteLine),
      x ∈ printLoop alloc top sites fuel shown → ∃ a ∈ sites, x = mkLine alloc a := by
  intro sites
  induction sites with
  | nil => intro fuel shown x h; simp [printLoop] at h
  | cons a rest ih =>
    intro fuel shown x h
    cases fuel with
    | zero => simp [printLoop] at h
    | succ f =>
      simp only [printLoop] at h
      split at h
      · simp at h
        exact ⟨a, by simp, h⟩
      · rcases List.mem_cons.mp h with h1 | h2
        · exact ⟨a, by simp, h1⟩
        · obtain ⟨b, hb, hx⟩ := ih f (shown + a.total_size) x h2
          exact ⟨b, by simp [hb], hx⟩

theorem printLoop_pairwise (alloc top : Nat) :
    ∀ (sites : List AllocationSite) (fuel shown : Nat),
      sites.Pairwise SiteGE →
      (printLoop alloc top sites fuel shown).Pairwise
        (fun x y => y.bytes ≤ x.bytes) := by
  intro sites
  induction sites with
  | nil => intro fuel shown _; simp [printLoop]
  | cons a rest ih =>
    intro fuel shown hp
    cases fuel with
    | zero => simp [printLoop]
    | succ f =>
      simp only [printLoop]
      rcases List.pairwise_cons.mp hp with ⟨ha, hrest⟩
      split
      · simp
      · refine List.pairwise_cons.mpr ⟨?_, ih f (shown + a.total_size) hrest⟩
        intro y hy
        obtain ⟨b, hb, hyb⟩ := printLoop_mem alloc top rest f (shown + a.total_size) y hy
        subst hyb
        simpa [mkLine] using ha b hb

/-- **C2.** For every aggregator state with positive allocated bytes and
any `(top_percent, max_number_of_contexts)`, `Print` emits the header plus
the loop's site lines; the loop emits at most `max_number_of_contexts`
lines, every line except possibly the last leaves the cumulative shown
percentage at or below `top_percent` (so iteration stops immediately after
the first crossing line), and whenever the loop stops before exhausting
both the site list and the cap, the cumulative percentage of what was
shown exceeds `top_percent` (the crossing line itself was emitted). -/
theorem renderer_selection (hp : HeapProfile) (top maxn : Nat)
    (h : 0 < hp.total_allocated_user_size) :
    hp.Print top maxn = some (hp.header top maxn, hp.printLines top maxn) ∧
      (hp.printLines top maxn).length ≤ maxn ∧
      (∀ k, k + 1 < (hp.printLines top maxn).length →
        cumBytes ((hp.printLines top maxn).take (k + 1)) * 100
            / hp.total_allocated_user_size ≤ top) ∧
      ((hp.printLines top maxn).length < min hp.allocations.length maxn →
        cumBytes (hp.printLines top maxn) * 100 / hp.total_allocated_user_size > top) := by
  refine ⟨by simp [HeapProfile.Print, Nat.pos_iff_ne_zero.mp h], ?_, ?_, ?_⟩
  · exact printLoop_length_le _ _ _ _ _
  · intro k hk
    have := printLoop_mid_le_top hp.total_allocated_user_size top
      (sortSites hp.allocations) maxn 0 k hk
    simpa [HeapProfile.printLines] using this
  · intro hlt
    have hlen : (sortSites hp.allocations).length = hp.allocations.length :=
      (List.perm_insertionSort SiteGE hp.allocations).length_eq
    have := printLoop_stops_after_cross hp.total_allocated_user_size top
      (sortSites hp.allocations) maxn 0
      (by simpa [HeapProfile.printLines, hlen] using hlt)
    simpa [HeapProfile.printLines] using this

theorem renderer_selection_witness :
    0 < (processChunks [ChunkRecord.allocated 700 1,
        ChunkRecord.allocated 300 2]).total_allocated_user_size ∧
      ((processChunks [ChunkRecord.allocated 700 1,
          ChunkRecord.allocated 300 2]).printLines 50 10).length ≤ 10 :=
  ⟨by decide,
    (renderer_selection
      (processChunks [ChunkRecord.allocated 700 1, ChunkRecord.allocated 300 2])
      50 10 (by decide)).2.1⟩

/-- **C7.** Every emitted site line's percentage equals
`total_size * 100 / total_allocated_user_size_` in truncating natural
division, which is the floor of the exact rational quotient. -/
theorem line_percent_truncated (hp : HeapProfile) (top maxn : Nat) (line : SiteLine)
    (hmem : line ∈ hp.printLines top maxn) :
    line.percent = line.bytes * 100 / hp.total_allocated_user_size ∧
      line.percent
        = Nat.floor ((line.bytes * 100 : ℚ) / (hp.total_allocated_user_size : ℚ)) := by
  obtain ⟨a, _, hx⟩ := printLoop_mem _ _ _ _ _ line hmem
  subst hx
  refine ⟨rfl, ?_⟩
  simp only [mkLine]
  rw [show ((a.total_size : ℚ) * 100) = ((a.total_size * 100 : ℕ) : ℚ) by push_cast; ring,
    Nat.floor_div_eq_div]

theorem line_percent_truncated_witness :
    (⟨700, 70, 1⟩ : SiteLine) ∈ (processChunks [ChunkRecord.allocated 700 1,
        ChunkRecord.allocated 300 2]).printLines 100 10 ∧
      (⟨700, 70, 1⟩ : SiteLine).percent
        = (⟨700, 70, 1⟩ : SiteLine).bytes * 100
            / (processChunks [ChunkRecord.allocated 700 1,
                ChunkRecord.allocated 300 2]).total_allocated_user_size :=
  ⟨by decide,
    (line_percent_truncated
      (processChunks [ChunkRecord.allocated 700 1, ChunkRecord.allocated 300 2])
      100 10 ⟨700, 70, 1⟩ (by decide)).1⟩

/-- **C9.** The renderer sorts the `AllocationSite` list by `total_size`
descending before emitting: the sorted list is a permutation of the
aggregator's list, it is sorted under the comparator's order, and the
emitted site lines appear in non-increasing order of their byte counts. -/
theorem renderer_sorted (hp : HeapProfile) (top maxn : Nat) :
    (sortSites hp.allocations).Perm hp.allocations ∧
      List.Sorted SiteGE (sortSites hp.allocations) ∧
      (hp.printLines top maxn).Pairwise (fun x y => y.bytes ≤ x.bytes) :=
  ⟨List.perm_insertionSort SiteGE hp.allocations,
   List.sorted_insertionSort SiteGE hp.allocations,
   printLoop_pairwise _ _ _ _ _ (List.sorted_insertionSort SiteGE hp.allocations)⟩

/- ### Attribution lemmas (per-site byte sums) -/

/-- Sum of `total_size` over a site list. -/
def sumSites (sites : List AllocationSite) : Nat :=
  (sites.map AllocationSite.total_size).sum

/-- Bytes a record contributes to some per-site `total_size` (allocated
with nonzero stack id). -/
def attribSizeR : ChunkRecord → Nat
  | .allocated s i => if i ≠ 0 then s else 0
  | _ => 0

/-- Bytes of an allocated record with stack id `0` (unattributed). -/
def unattribSizeR : ChunkRecord → Nat
  | .allocated s i => if i = 0 then s else 0
  | _ => 0

theorem insertSite_sum (id size : Nat) :
    ∀ sites, sumSites (insertSite id size sites) = sumSites sites + size := by
  intro sites
  induction sites with
  | nil => simp [insertSite, sumSites]
  | cons a rest ih =>
    simp only [insertSite]
    split
    · simp [sumSites]; omega
    · simp only [sumSites, List.map_cons, List.sum_cons] at ih ⊢
      omega

theorem ProcessChunk_sumSites (hp : HeapProfile) (r : ChunkRecord) :
    sumSites (hp.ProcessChunk r).allocations = sumSites hp.allocations + attribSizeR r := by
  cases r with
  | allocated size id =>
    by_cases h : id ≠ 0
    · simp [HeapProfile.ProcessChunk, HeapProfile.Insert, attribSizeR, h, insertSite_sum]
    · simp [HeapProfile.ProcessChunk, attribSizeR, h]
  | quarantined size => simp [HeapProfile.ProcessChunk, attribSizeR]
  | other => simp [HeapProfile.ProcessChunk, attribSizeR]

theorem foldChunks_sumSites (l : List ChunkRecord) (hp : HeapProfile) :
    sumSites (foldChunks hp l).allocations
      = sumSites hp.allocations + (l.map attribSizeR).sum := by
  induction l generalizing hp with
  | nil => simp [foldChunks]
  | cons r rest ih =>
    simp only [foldChunks, List.foldl_cons] at *
    rw [ih, ProcessChunk_sumSites, List.map_cons, List.sum_cons]
    omega

theorem attrib_add_unattrib (l : List ChunkRecord) :
    (l.map attribSizeR).sum + (l.map unattribSizeR).sum = (l.map allocSize).sum := by
  induction l with
  | nil => simp
  | cons r rest ih =>
    simp only [List.map_cons, List.sum_cons]
    cases r with
    | allocated size id =>
      by_cases h : id = 0 <;> simp [attribSizeR, unattribSizeR, allocSize, h] <;> omega
    | quarantined size => simp [attribSizeR, unattribSizeR, allocSize]; omega
    | other => simp [attribSizeR, unattribSizeR, allocSize]; omega

/-- **C4.** After any sequence of observed chunk records, the sum of
`total_size` over all `AllocationSite` records of the aggregator plus the
bytes of allocated chunks observed with stack id `0` equals the
aggregator's `total_allocated_user_size_`. -/
theorem attribution_sum (l : List ChunkRecord) :
    sumSites (processChunks l).allocations + (l.map unattribSizeR).sum
      = (processChunks l).total_allocated_user_size := by
  have h1 := foldChunks_sumSites l HeapProfile.init
  have h2 := foldChunks_total_allocated_user_size l HeapProfile.init
  have h3 := attrib_add_unattrib l
  have e1 : sumSites HeapProfile.init.allocations = 0 := rfl
  have e2 : HeapProfile.init.total_allocated_user_size = 0 := rfl
  simp only [processChunks]
  omega

theorem sumSites_le_alloc (l : List ChunkRecord) :
    sumSites (processChunks l).allocations
      ≤ (processChunks l).total_allocated_user_size := by
  have h1 := attribution_sum l
  omega

theorem printLoop_length_eq_min (alloc top : Nat) (htop : 100 ≤ top) (hpos : 0 < alloc) :
    ∀ (sites : List AllocationSite) (fuel shown : Nat),
      shown + sumSites sites ≤ alloc →
      (printLoop alloc top sites fuel shown).length = min sites.length fuel := by
  intro sites
  induction sites with
  | nil => intro fuel shown _; simp [printLoop]
  | cons a rest ih =>
    intro fuel shown hsum
    cases fuel with
    | zero => simp [printLoop]
    | succ f =>
      simp only [sumSites, List.map_cons, List.sum_cons] at hsum
      have hle : shown + a.total_size ≤ alloc := by omega
      have hcond : ¬ (shown + a.total_size) * 100 / alloc > top := by
        have hb : (shown + a.total_size) * 100 ≤ alloc * 100 :=
          Nat.mul_le_mul_right 100 hle
        have hd : (shown + a.total_size) * 100 / alloc ≤ alloc * 100 / alloc :=
          Nat.div_le_div_right hb
        rw [Nat.mul_div_cancel_left 100 hpos] at hd
        omega
      simp only [printLoop, if_neg hcond, List.length_cons]
      rw [ih f (shown + a.total_size) (by simp only [sumSites]; omega)]
      omega

/-- **C10.** For an aggregator built from any record stream with positive
allocated bytes, if `top_percent ≥ 100` the cumulative-percentage break in
the print loop never fires (the sum of all `total_size` never exceeds the
allocated total), so exactly
`min(number of AllocationSite records, max_number_of_contexts)` site lines
are emitted. -/
theorem renderer_full_when_top_ge_100 (l : List ChunkRecord) (top maxn : Nat)
    (h1 : 0 < (processChunks l).total_allocated_user_size) (h2 : 100 ≤ top) :
    ((processChunks l).printLines top maxn).length
      = min (processChunks l).allocations.length maxn := by
  have hperm := List.perm_insertionSort SiteGE (processChunks l).allocations
  have hsort : sumSites (sortSites (processChunks l).allocations)
      = sumSites (processChunks l).allocations := by
    simpa [sumSites] using (hperm.map AllocationSite.total_size).sum_eq
  have hlen : (sortSites (processChunks l).allocations).length
      = (processChunks l).allocations.length := hperm.length_eq
  have := printLoop_length_eq_min (processChunks l).total_allocated_user_size top h2 h1
    (sortSites (processChunks l).allocations) maxn 0
    (by rw [hsort]; simpa using sumSites_le_alloc l)
  simpa [HeapProfile.printLines, hlen] using this

theorem renderer_full_when_top_ge_100_witness :
    0 < (processChunks [ChunkRecord.allocated 700 1,
        ChunkRecord.allocated 300 2]).total_allocated_user_size ∧
      100 ≤ 100 ∧
      ((processChunks [ChunkRecord.allocated 700 1,
          ChunkRecord.allocated 300 2]).printLines 100 1).length
        = min (processChunks [ChunkRecord.allocated 700 1,
            ChunkRecord.allocated 300 2]).allocations.length 1 :=
  ⟨by decide, le_refl 100,
    renderer_full_when_top_ge_100
      [ChunkRecord.allocated 700 1, ChunkRecord.allocated 300 2]
      100 1 (by decide) (le_refl 100)⟩

/- ### Site-table structure lemmas (`HeapProfile::Insert`) -/

/-- The per-record `total_size`/`count` bump `Insert` performs on the
matching record. -/
def bumpSite (id size : Nat) (a : AllocationSite) : AllocationSite :=
  if a.id = id then ⟨a.id, a.total_size + size, a.count + 1⟩ else a

theorem map_eq_self_of {α : Type} (l : List α) (f : α → α) (h : ∀ a ∈ l, f a = a) :
    l.map f = l := by
  induction l with
  | nil => rfl
  | cons a rest ih =>
    simp only [List.map_cons]
    rw [h a (by simp), ih fun b hb => h b (by simp [hb])]

theorem insertSite_ids (i s : Nat) :
    ∀ ss : List AllocationSite,
      (insertSite i s ss).map AllocationSite.id
        = if i ∈ ss.map AllocationSite.id then ss.map AllocationSite.id
          else ss.map AllocationSite.id ++ [i] := by
  intro ss
  induction ss with
  | nil => simp [insertSite]
  | cons a rest ih =>
    simp only [insertSite]
    by_cases h : a.id = i
    · simp [h]
    · simp only [if_neg h, List.map_cons, ih]
      have : ¬ i = a.id := fun hc => h hc.symm
      by_cases hm : i ∈ rest.map AllocationSite.id <;> simp [hm, this]

theorem insertSite_not_mem (i s : Nat) :
    ∀ ss : List AllocationSite, i ∉ ss.map AllocationSite.id →
      insertSite i s ss = ss ++ [⟨i, s, 1⟩] := by
  intro ss
  induction ss with
  | nil => intro _; rfl
  | cons a rest ih =>
    intro h
    simp only [List.map_cons, List.mem_cons] at h
    push_neg at h
    have hne : ¬ a.id = i := fun hc => h.1 hc.symm
    simp only [insertSite, if_neg hne, List.cons_append]
    rw [ih h.2]

theorem insertSite_mem (i s : Nat) :
    ∀ ss : List AllocationSite, (ss.map AllocationSite.id).Nodup →
      i ∈ ss.map AllocationSite.id →
      insertSite i s ss = ss.map (bumpSite i s) := by
  intro ss
  induction ss with
  | nil => intro _ h; simp at h
  | cons a rest ih =>
    intro hnd hm
    simp only [List.map_cons, List.nodup_cons] at hnd
    by_cases h : a.id = i
    · simp only [insertSite, if_pos h, List.map_cons, bumpSite, if_pos h]
      rw [map_eq_self_of rest (bumpSite i s)]
      intro b hb
      have : b.id ≠ i := fun hc => hnd.1 (by rw [← h] at hc; rw [← hc]; exact List.mem_map_of_mem _ hb)
      simp [bumpSite, this]
    · have hm' : i ∈ rest.map AllocationSite.id := by
        rcases List.mem_cons.mp hm with h1 | h2
        · exact absurd h1.symm h
        · exact h2
      simp only [insertSite, if_neg h, List.map_cons, bumpSite, if_neg h]
      rw [ih hnd.2 hm']

theorem insertSite_comm (i1 s1 i2 s2 : Nat) :
    ∀ ss : List AllocationSite,
      (insertSite i2 s2 (insertSite i1 s1 ss)).Perm
        (insertSite i1 s1 (insertSite i2 s2 ss)) := by
  intro ss
  induction ss with
  | nil =>
    by_cases h : i1 = i2
    · subst h
      have hts : s1 + s2 = s2 + s1 := Nat.add_comm s1 s2
      simp [insertSite, hts]
    · have h' : ¬ i2 = i1 := fun hc => h hc.symm
      simp only [insertSite, if_neg h, if_neg h']
      exact List.Perm.swap _ _ _
  | cons a rest ih =>
    by_cases h1 : a.id = i1 <;> by_cases h2 : a.id = i2
    · -- a matches both: both sides bump `a` twice
      have hts : a.total_size + s1 + s2 = a.total_size + s2 + s1 := by omega
      simp [insertSite, h1, h2, ← h1.symm.trans h2, hts]
    · simp only [insertSite, if_pos h1, if_neg h2, if_pos h1]
      exact List.Perm.refl _
    · simp only [insertSite, if_neg h1, if_pos h2, if_pos h2, if_neg h1]
      exact List.Perm.refl _
    · simp only [insertSite, if_neg h1, if_neg h2, if_neg h1, if_neg h2]
      exact (ih).cons a

theorem insertSite_congr (i s : Nat) (ss1 ss2 : List AllocationSite)
    (hperm : ss1.Perm ss2) (hnd : (ss1.map AllocationSite.id).Nodup) :
    (insertSite i s ss1).Perm (insertSite i s ss2) := by
  have hmapperm := hperm.map AllocationSite.id
  by_cases hm : i ∈ ss1.map AllocationSite.id
  · rw [insertSite_mem i s ss1 hnd hm,
      insertSite_mem i s ss2 (hmapperm.nodup_iff.mp hnd) (hmapperm.mem_iff.mp hm)]
    exact hperm.map (bumpSite i s)
  · rw [insertSite_not_mem i s ss1 hm,
      insertSite_not_mem i s ss2 fun hc => hm (hmapperm.mem_iff.mpr hc)]
    exact hperm.append_right [⟨i, s, 1⟩]

/-- The effect of `ProcessChunk` on the `allocations_` vector alone:
allocated chunks with nonzero stack id go through `Insert`, everything
else leaves the vector unchanged. -/
def insertR : ChunkRecord → List AllocationSite → List AllocationSite
  | .allocated s i, ss => if i ≠ 0 then insertSite i s ss else ss
  | _, ss => ss

theorem ProcessChunk_allocations (hp : HeapProfile) (r : ChunkRecord) :
    (hp.ProcessChunk r).allocations = insertR r hp.allocations := by
  cases r with
  | allocated s i =>
    by_cases h : i ≠ 0 <;>
      simp [HeapProfile.ProcessChunk, HeapProfile.Insert, insertR, h]
  | quarantined s => rfl
  | other => rfl

/-- The `allocations_` vector after a record stream, starting from `ss`. -/
def foldInsert (ss : List AllocationSite) (l : List ChunkRecord) : List AllocationSite :=
  l.foldl (fun ss r => insertR r ss) ss

theorem foldChunks_allocations (l : List ChunkRecord) (hp : HeapProfile) :
    (foldChunks hp l).allocations = foldInsert hp.allocations l := by
  induction l generalizing hp with
  | nil => rfl
  | cons r rest ih =>
    simp only [foldChunks, foldInsert, List.foldl_cons] at *
    rw [ih, ProcessChunk_allocations]

/-- The site-table invariant: ids are pairwise distinct and no record has
id `0`. -/
def SitesInv (ss : List AllocationSite) : Prop :=
  (ss.map AllocationSite.id).Nodup ∧ 0 ∉ ss.map AllocationSite.id

theorem insertSite_nodup (i s : Nat) (ss : List AllocationSite)
    (h : (ss.map AllocationSite.id).Nodup) :
    ((insertSite i s ss).map AllocationSite.id).Nodup := by
  rw [insertSite_ids]
  split
  · exact h
  · rename_i hm
    simp [List.nodup_append, h, hm]

theorem insertSite_inv (i s : Nat) (hi : i ≠ 0) (ss : List AllocationSite)
    (h : SitesInv ss) : SitesInv (insertSite i s ss) := by
  refine ⟨insertSite_nodup i s ss h.1, ?_⟩
  rw [insertSite_ids]
  split
  · exact h.2
  · have h0 : (0 : Nat) ≠ i := fun hc => hi hc.symm
    simp [h.2, h0]

theorem insertR_nodup (r : ChunkRecord) (ss : List AllocationSite)
    (h : (ss.map AllocationSite.id).Nodup) :
    ((insertR r ss).map AllocationSite.id).Nodup := by
  cases r with
  | allocated s i =>
    by_cases hi : i ≠ 0
    · simpa [insertR, hi] using insertSite_nodup i s ss h
    · simpa [insertR, hi] using h
  | quarantined s => exact h
  | other => exact h

theorem insertR_inv (r : ChunkRecord) (ss : List AllocationSite)
    (h : SitesInv ss) : SitesInv (insertR r ss) := by
  cases r with
  | allocated s i =>
    by_cases hi : i ≠ 0
    · simpa [insertR, hi] using insertSite_inv i s hi ss h
    · simpa [insertR, hi] using h
  | quarantined s => exact h
  | other => exact h

theorem foldInsert_inv (l : List ChunkRecord) :
    ∀ ss : List AllocationSite, SitesInv ss → SitesInv (foldInsert ss l) := by
  induction l with
  | nil => intro ss h; exact h
  | cons r rest ih =>
    intro ss h
    simp only [foldInsert, List.foldl_cons]
    exact ih (insertR r ss) (insertR_inv r ss h)

theorem insertR_congr (r : ChunkRecord) (ss1 ss2 : List AllocationSite)
    (hperm : ss1.Perm ss2) (hnd : (ss1.map AllocationSite.id).Nodup) :
    (insertR r ss1).Perm (insertR r ss2) := by
  cases r with
  | allocated s i =>
    by_cases hi : i ≠ 0
    · simpa [insertR, hi] using insertSite_congr i s ss1 ss2 hperm hnd
    · simpa [insertR, hi] using hperm
  | quarantined s => exact hperm
  | other => exact hperm

theorem insertR_comm (r1 r2 : ChunkRecord) (ss : List AllocationSite) :
    (insertR r2 (insertR r1 ss)).Perm (insertR r1 (insertR r2 ss)) := by
  cases r1 with
  | allocated s1 i1 =>
    cases r2 with
    | allocated s2 i2 =>
      by_cases h1 : i1 ≠ 0 <;> by_cases h2 : i2 ≠ 0 <;>
        simp [insertR, h1, h2, insertSite_comm i1 s1 i2 s2 ss]
    | quarantined s2 => exact List.Perm.refl _
    | other => exact List.Perm.refl _
  | quarantined s1 => exact List.Perm.refl _
  | other => exact List.Perm.refl _

theorem foldInsert_congr (l : List ChunkRecord) :
    ∀ ss1 ss2 : List AllocationSite, ss1.Perm ss2 →
      (ss1.map AllocationSite.id).Nodup →
      (foldInsert ss1 l).Perm (foldInsert ss2 l) := by
  induction l with
  | nil => intro ss1 ss2 hperm _; exact hperm
  | cons r rest ih =>
    intro ss1 ss2 hperm hnd
    simp only [foldInsert, List.foldl_cons]
    exact ih (insertR r ss1) (insertR r ss2)
      (insertR_congr r ss1 ss2 hperm hnd) (insertR_nodup r ss1 hnd)

theorem foldInsert_perm (l1 l2 : List ChunkRecord) (h : l1.Perm l2) :
    ∀ ss : List AllocationSite, (ss.map AllocationSite.id).Nodup →
      (foldInsert ss l1).Perm (foldInsert ss l2) := by
  induction h with
  | nil => intro ss _; exact List.Perm.refl _
  | cons x _ ih =>
    intro ss hnd
    simp only [foldInsert, List.foldl_cons]
    exact ih (insertR x ss) (insertR_nodup x ss hnd)
  | swap x y t =>
    intro ss hnd
    simp only [foldInsert, List.foldl_cons]
    exact foldInsert_congr t _ _ (insertR_comm y x ss)
      (insertR_nodup x _ (insertR_nodup y ss hnd))
  | trans _ _ ih1 ih2 =>
    intro ss hnd
    exact (ih1 ss hnd).trans (ih2 ss hnd)

/-- **C3.** Feeding any two permutations of the same multiset of chunk
records to a fresh aggregator yields identical totals (allocated
bytes/count, quarantined bytes/count, other count) and the same multiset
of `AllocationSite{id, total_size, count}` records (the list order may
differ, the records do not). -/
theorem aggregation_order_independent (l1 l2 : List ChunkRecord) (h : l1.Perm l2) :
    (processChunks l1).total_allocated_user_size
        = (processChunks l2).total_allocated_user_size ∧
      (processChunks l1).total_allocated_count
        = (processChunks l2).total_allocated_count ∧
      (processChunks l1).total_quarantined_user_size
        = (processChunks l2).total_quarantined_user_size ∧
      (processChunks l1).total_quarantined_count
        = (processChunks l2).total_quarantined_count ∧
      (processChunks l1).total_other_count = (processChunks l2).total_other_count ∧
      ((processChunks l1).allocations : Multiset AllocationSite)
        = ((processChunks l2).allocations : Multiset AllocationSite) := by
  refine ⟨?_, ?_, ?_, ?_, ?_, ?_⟩
  · rw [processChunks, processChunks, foldChunks_total_allocated_user_size,
      foldChunks_total_allocated_user_size, (h.map allocSize).sum_eq]
  · rw [processChunks, processChunks, foldChunks_total_allocated_count,
      foldChunks_total_allocated_count, h.countP_eq]
  · rw [processChunks, processChunks, foldChunks_total_quarantined_user_size,
      foldChunks_total_quarantined_user_size, (h.map quarSize).sum_eq]
  · rw [processChunks, processChunks, foldChunks_total_quarantined_count,
      foldChunks_total_quarantined_count, h.countP_eq]
  · rw [processChunks, processChunks, foldChunks_total_other_count,
      foldChunks_total_other_count, h.countP_eq]
  · rw [Multiset.coe_eq_coe, processChunks, processChunks,
      foldChunks_allocations, foldChunks_allocations]
    exact foldInsert_perm l1 l2 h HeapProfile.init.allocations (by simp [HeapProfile.init])

theorem aggregation_order_independent_witness :
    ([ChunkRecord.allocated 700 1, ChunkRecord.allocated 300 2,
        ChunkRecord.quarantined 50, ChunkRecord.other]).Perm
      ([ChunkRecord.other, ChunkRecord.quarantined 50,
        ChunkRecord.allocated 300 2, ChunkRecord.allocated 700 1]) ∧
      (processChunks [ChunkRecord.allocated 700 1, ChunkRecord.allocated 300 2,
          ChunkRecord.quarantined 50, ChunkRecord.other]).total_allocated_user_size
        = (processChunks [ChunkRecord.other, ChunkRecord.quarantined 50,
            ChunkRecord.allocated 300 2,
            ChunkRecord.allocated 700 1]).total_allocated_user_size :=
  ⟨by decide,
    (aggregation_order_independent
      [ChunkRecord.allocated 700 1, ChunkRecord.allocated 300 2,
        ChunkRecord.quarantined 50, ChunkRecord.other]
      [ChunkRecord.other, ChunkRecord.quarantined 50,
        ChunkRecord.allocated 300 2, ChunkRecord.allocated 700 1]
      (by decide)).1⟩

/-- **C6.** After any record stream the site table has pairwise-distinct
ids (at most one record per distinct nonzero id), contains no record with
id `0`, and observing a further allocated chunk whose nonzero id is
already present only bumps that record's `total_size` by the chunk size
and `count` by one, leaving the table length unchanged (no duplicate is
created). -/
theorem site_table_unique (l : List ChunkRecord) (size id : Nat)
    (hid : id ≠ 0)
    (hmem : id ∈ (processChunks l).allocations.map AllocationSite.id) :
    ((processChunks l).allocations.map AllocationSite.id).Nodup ∧
      0 ∉ (processChunks l).allocations.map AllocationSite.id ∧
      ((processChunks l).ProcessChunk (ChunkRecord.allocated size id)).allocations
        = (processChunks l).allocations.map (bumpSite id size) ∧
      ((processChunks l).ProcessChunk (ChunkRecord.allocated size id)).allocations.length
        = (processChunks l).allocations.length := by
  have hinv : SitesInv (processChunks l).allocations := by
    rw [processChunks, foldChunks_allocations]
    exact foldInsert_inv l HeapProfile.init.allocations ⟨by simp [HeapProfile.init], by simp [HeapProfile.init]⟩
  have hupd : ((processChunks l).ProcessChunk (ChunkRecord.allocated size id)).allocations
      = (processChunks l).allocations.map (bumpSite id size) := by
    rw [ProcessChunk_allocations]
    simp only [insertR, if_pos hid]
    exact insertSite_mem id size _ hinv.1 hmem
  exact ⟨hinv.1, hinv.2, hupd, by rw [hupd, List.length_map]⟩

theorem site_table_unique_witness :
    (1 : Nat) ≠ 0 ∧
      (1 : Nat) ∈ (processChunks [ChunkRecord.allocated 700 1]).allocations.map
        AllocationSite.id ∧
      ((processChunks [ChunkRecord.allocated 700 1]).allocations.map
        AllocationSite.id).Nodup :=
  ⟨by decide, by decide,
    (site_table_unique [ChunkRecord.allocated 700 1] 300 1 (by decide) (by decide)).1⟩

/-- **C1 counterexample.** The claim says the allocator-chunk registry lock
is acquired first and the thread registry lock second; in
`LockDefStuffAndStopTheWorld` the first acquisition is in fact
`__lsan::LockThreadRegistry()`, so the claimed acquisition order is false
for the concrete trace. -/
theorem lock_order_claim_false :
    ¬ LockDefStuffAndStopTheWorld.take 2
        = [LockEvent.lockAllocator, LockEvent.lockThreadRegistry] := by
  decide

/-- **C1 (amended).** `LockDefStuffAndStopTheWorld` acquires the thread
registry lock first and the allocator-chunk registry lock second, in that
fixed order, before invoking the freeze-the-world primitive; after the
primitive returns it releases the two locks in reverse acquisition order
(allocator first, thread registry last). -/
theorem lock_order_amended :
    LockDefStuffAndStopTheWorld.take 2
        = [LockEvent.lockThreadRegistry, LockEvent.lockAllocator] ∧
      LockDefStuffAndStopTheWorld[2]? = some LockEvent.stopTheWorld ∧
      LockDefStuffAndStopTheWorld.drop 3
        = [LockEvent.unlockAllocator, LockEvent.unlockThreadRegistry] := by
  decide

end AsanMemProf
